import Mathlib

/-!
Shallow embedding of the 24puzzle codebase (index computation, pattern
databases, catalogues, the move-pruning finite state machines and the
heuristic loader) together with proofs about the embedded definitions.

Representation conventions:

* A C `tileset` is a 25-bit mask of tiles/grid squares; we represent it as
  a `Finset (Fin 25)` (the set of positions of the set bits).  C loops of
  the shape `for (; !tileset_empty(ts); ts = tileset_remove_least(ts))`
  visit the members in ascending order, so they are embedded as recursion
  over the ascending member list `tileset_list`.
* A C `struct puzzle` holds the two mutually inverse arrays `tiles` and
  `grid`; both become functions `Fin 25 → Fin 25`.
* Machine integers hold only small nonnegative quantities here; they are
  embedded as `Nat`, except `eqidx`, which the code marks invalid with -1
  and which therefore becomes an `Int`.

Definitions whose C source is not part of the provided sources (tileset.c,
puzzle.c, index.h, fsm.h, heuristic.h are referenced but absent) are
modelled from the specification and carry a doc comment starting with
`Modelled from the spec:`.
-/

/- ------------------------------------------------------------------ -/
/- Section 1: tile sets and puzzles                                    -/
/- ------------------------------------------------------------------ -/

/-- Number of grid squares / tiles on the 5 by 5 board (`TILE_COUNT`). -/
def TILE_COUNT : Nat := 25

/-- A tile set: the set of set bits of the C 25-bit mask. -/
abbrev tileset := Finset (Fin 25)

/-- The empty tile set (`EMPTY_TILESET`). -/
def EMPTY_TILESET : tileset := ∅

/-- `tileset_has ts t`: bit `t` is set in `ts`. -/
abbrev tileset_has (ts : tileset) (t : Fin 25) : Prop := t ∈ ts

/-- `tileset_count`: population count of the mask. -/
def tileset_count (ts : tileset) : Nat := ts.card

/-- `tileset_remove`: clear bit `t`. -/
def tileset_remove (ts : tileset) (t : Fin 25) : tileset := ts.erase t

/-- `tileset_add`: set bit `t`. -/
def tileset_add (ts : tileset) (t : Fin 25) : tileset := insert t ts

/-- `tileset_complement`: complement within the 25 board squares. -/
def tileset_complement (ts : tileset) : tileset := tsᶜ

/-- The members of `ts` in ascending order; C code iterates a tileset in
this order via `tileset_get_least` / `tileset_remove_least`. -/
def tileset_list (ts : tileset) : List (Fin 25) :=
  (List.finRange 25).filter (fun t => decide (t ∈ ts))

/-- `tileset_get_least`: least set bit (`ctz` of the mask); the value on
the empty set is irrelevant (the C call would be undefined there). -/
def tileset_get_least (ts : tileset) : Fin 25 := (tileset_list ts).headD 0

/-- `rankselect m i`: the i-th least set bit of `m` (the C routine returns
it as a one-bit mask and the caller takes `tileset_get_least` of it). -/
def rankselect (m : tileset) (i : Nat) : Fin 25 := (tileset_list m).getD i 0

/-- Count-trailing-zeros loop (the C builtin `ctz`): the fuel argument
only bounds the recursion depth and any fuel of at least the bit length
of `n` yields the trailing-zero count. -/
def ctz_go : Nat → Nat → Nat
  | 0, _ => 0
  | fuel + 1, n => if n % 2 = 1 then 0 else 1 + ctz_go fuel (n / 2)

/-- `ctz n`: the index of the least set bit of `n` (0 for `n = 0`, where
the C builtin is undefined). -/
def ctz (n : Nat) : Nat := ctz_go n n

/-- The 25-bit mask underlying a tile set (the C representation). -/
def tileset_mask (s : tileset) : Nat :=
  (List.finRange 25).foldl (fun m t => if t ∈ s then m ||| (1 <<< t.val) else m) 0

/-- A puzzle configuration: `tiles t` is the grid square of tile `t`,
`grid g` is the tile on square `g` (`struct puzzle`). -/
structure puzzle where
  tiles : Fin 25 → Fin 25
  grid : Fin 25 → Fin 25

/-- `zero_location`: the square occupied by the zero tile. -/
def zero_location (p : puzzle) : Fin 25 := p.tiles 0

/-- The solved configuration: tile `t` on square `t`. -/
def solved_puzzle : puzzle := { tiles := fun t => t, grid := fun g => g }

/-- Modelled from the spec: `move` from puzzle.h (not under src/) swaps
the zero tile with the tile on square `loc`, updating both arrays; the
writes `grid[zloc] = tile; grid[loc] = 0; tiles[tile] = zloc;
tiles[0] = loc` become nested `Function.update`s with the later C write
outermost. -/
def move (p : puzzle) (loc : Fin 25) : puzzle :=
  let zloc := zero_location p
  let tile := p.grid loc
  { tiles := Function.update (Function.update p.tiles tile zloc) 0 loc
    grid := Function.update (Function.update p.grid zloc tile) loc 0 }

/-- The board invariants of `struct puzzle`: `tiles` and `grid` are
mutually inverse. -/
abbrev puzzle_ok (p : puzzle) : Prop :=
  (∀ t, p.grid (p.tiles t) = t) ∧ ∀ g, p.tiles (p.grid g) = g

/-- Modelled from the spec: two squares of the 5 by 5 grid are adjacent
when they share a row and their columns differ by one, or share a column
and their rows differ by one. -/
abbrev puzzle_adjacent (a b : Fin 25) : Prop :=
  (a.val / 5 = b.val / 5 ∧ (a.val % 5 + 1 = b.val % 5 ∨ b.val % 5 + 1 = a.val % 5)) ∨
    (a.val % 5 = b.val % 5 ∧ (a.val / 5 + 1 = b.val / 5 ∨ b.val / 5 + 1 = a.val / 5))

/-- Modelled from the spec: `get_moves z` lists the squares the zero tile
can move to from square `z`; the move table lists them in ascending
order (up, left, right, down). -/
def get_moves (z : Fin 25) : List (Fin 25) :=
  (List.finRange 25).filter (fun d => decide (puzzle_adjacent z d))

/- ------------------------------------------------------------------ -/
/- Section 2: combinatorial ranking of tile maps                       -/
/- ------------------------------------------------------------------ -/

/-- Modelled from the spec: `combination_count[k]` is the precomputed
number of k-subsets of the 25 grid squares. -/
def combination_count (k : Nat) : Nat := Nat.choose 25 k

/-- The `factorials` table of index.c; the C array tabulates `n!` for
`n ≤ INDEX_MAX_TILES = 12`. -/
def factorials (n : Nat) : Nat := Nat.factorial n

/-- Modelled from the spec: `tileset_rank` ranks a k-subset in the fixed
colex enumeration via the standard combinatorial number system: a map
with ascending members `a 0 < a 1 < ...` has rank `∑ C(a i, i+1)`; the
inner filter counts how many members are at most `a`. -/
def tileset_rank (m : tileset) : Nat :=
  ∑ a ∈ m, Nat.choose a.val (m.filter (fun b => b ≤ a)).card

/-- Downward search for the greedy digit of the combinatorial number
system: the largest `a ≤ bound` with `C(a,k) ≤ r` (0 if none). -/
def cns_digit_go (k r : Nat) : Nat → Nat
  | 0 => 0
  | a + 1 => if Nat.choose (a + 1) k ≤ r then a + 1 else cns_digit_go k r a

/-- The largest square index `a < 25` with `C(a,k) ≤ r`. -/
def cns_digit (k r : Nat) : Nat := cns_digit_go k r 24

/-- Modelled from the spec: `tileset_unrank` member list, most significant
digit first, by the greedy algorithm of the combinatorial number
system. -/
def unrank_list : Nat → Nat → List Nat
  | 0, _ => []
  | k + 1, r =>
    let a := cns_digit (k + 1) r
    a :: unrank_list k (r - Nat.choose a (k + 1))

/-- Modelled from the spec: `tileset_unrank k r` is the k-subset of rank
`r` in the colex enumeration. -/
def tileset_unrank (k r : Nat) : tileset :=
  ((unrank_list k r).filterMap
    (fun a => if h : a < 25 then some (⟨a, h⟩ : Fin 25) else none)).toFinset

/- ------------------------------------------------------------------ -/
/- Section 3: equivalence classes of the zero tile and index tables    -/
/- ------------------------------------------------------------------ -/

/-- The mask of squares adjacent to square `t`. -/
def mask_adj (t : Fin 25) : Nat :=
  (get_moves t).foldl (fun m d => m ||| (1 <<< d.val)) 0

/-- The mask of squares adjacent to at least one square of the mask
`s`. -/
def mask_neighbors (s : Nat) : Nat :=
  (List.finRange 25).foldl (fun acc t => if s.testBit t.val then acc ||| mask_adj t else acc) 0

/-- One expansion step of the flood fill within the mask `cm`: add every
square of `cm` adjacent to the set collected so far. -/
def mask_flood_step (cm s : Nat) : Nat := s ||| (cm &&& mask_neighbors s)

/-- Modelled from the spec: the squares of `cm` reachable from square
`g` through `cm` under grid adjacency; 25 expansion steps certainly
reach the fixed point since the board has 25 squares. -/
def mask_reach (cm g : Nat) : Nat :=
  (fun s => mask_flood_step cm s)^[25] (cm &&& (1 <<< g))

/-- Peel the flood-fill classes off `remaining` in the order of their
least squares and return the list of class minima; 25 units of fuel
suffice since each class holds at least one square. -/
def mask_reps_go (cm : Nat) : Nat → Nat → List Nat
  | 0, _ => []
  | fuel + 1, remaining =>
    if remaining = 0 then []
    else
      let r := ctz remaining
      r :: mask_reps_go cm fuel (remaining ^^^ (remaining &&& mask_reach cm r))

/-- The canonical representatives (least squares) of the flood-fill
classes of `cm`, in ascending order; the C flood fill discovers and
numbers the classes in exactly this order while scanning the board. -/
def mask_reps (cm : Nat) : List Nat := mask_reps_go cm 25 cm

/-- Modelled from the spec: `tileset_populate_eqclasses` (tileset.c is
not under src/) assigns each square of the complement `cm` the number of
its flood-fill class and -1 to every other square. -/
def eqclasses_of (cm : tileset) (g : Fin 25) : Int :=
  if g ∈ cm then
    let cmm := tileset_mask cm
    ((mask_reps cmm).findIdx (fun r => (mask_reach cmm r).testBit g.val) : Int)
  else -1

/-- The number of equivalence classes of `cm`. -/
def n_eqclass_of (cm : tileset) : Nat := (mask_reps (tileset_mask cm)).length

/-- One entry of the per-maprank lookup table (`struct index_table`):
class count and square-to-class map for one tile map. -/
structure index_table where
  n_eqclass : Nat
  eqclasses : Fin 25 → Int

/-- The `index_table` entry for a given occupied map. -/
def index_table_of (map : tileset) : index_table :=
  { n_eqclass := n_eqclass_of (tileset_complement map)
    eqclasses := eqclasses_of (tileset_complement map) }

/-- `make_index_table` from index.c: for a tileset accounting for the
zero tile, the table of `index_table` entries indexed by map rank (the
C code fills entry i with the rank-i combination, enumerating
combinations in colex order); for a tileset without the zero tile it
returns NULL, embedded as `none`. -/
def make_index_table (ts : tileset) : Option (Nat → index_table) :=
  if (0 : Fin 25) ∈ ts then
    some (fun maprank =>
      index_table_of (tileset_unrank (tileset_count (tileset_remove ts 0)) maprank))
  else none

/-- `struct index_aux`: cached data for index computations.  The C struct
also caches the complemented tile array used by the vectorised
`tile_map` paths and the parity of the solved map; neither is needed by
the properties proved here. -/
structure index_aux where
  ts : tileset
  n_tile : Nat
  n_maprank : Nat
  n_perm : Nat
  idxt : Option (Nat → index_table)

/-- `make_index_aux` from index.c. -/
def make_index_aux (ts : tileset) : index_aux :=
  { ts := ts
    n_tile := tileset_count (tileset_remove ts 0)
    n_maprank := combination_count (tileset_count (tileset_remove ts 0))
    n_perm := factorials (tileset_count (tileset_remove ts 0))
    idxt := make_index_table ts }

/-- A structured index (`struct index`): map rank, permutation index and
equivalence class index (-1 when the tileset ignores the zero tile). -/
structure index where
  maprank : Nat
  pidx : Nat
  eqidx : Int
deriving DecidableEq

/- ------------------------------------------------------------------ -/
/- Section 4: computing and inverting indices (index.c)                -/
/- ------------------------------------------------------------------ -/

/-- `tile_map` from index.c, portable fallback branch (the `#else` arm):
it collects the squares of the tiles of `aux->ts`, including the zero
tile when present.  Note that the function's own comment and the two
vectorised branches (which read `aux->tiles`, filled by `make_index_aux`
from the tileset with the zero tile removed) collect the squares of the
nonzero tiles only. -/
def tile_map (aux : index_aux) (p : puzzle) : tileset := aux.ts.image p.tiles

/-- The loop of `index_permutation` in Horner form: the digit of the
least remaining tile (how many occupied squares lie strictly below the
tile's square) plus `n_tiles` times the value of the remaining digits;
the C code accumulates the same sum with an explicit running factor,
multiplying by the decremented tile counter at each step. -/
def index_permutation_go : List (Fin 25) → Nat → tileset → (Fin 25 → Fin 25) → Nat
  | [], _, _, _ => 0
  | t :: rest, n_tiles, map, tiles =>
    (map.filter (fun x => x < tiles t)).card +
      n_tiles * index_permutation_go rest (n_tiles - 1) (map.erase (tiles t)) tiles

/-- `index_permutation` from index.c: inversion-count factorial-base
encoding of which tile of `ts` occupies which square of `map`,
iterating the tiles of `ts` in ascending order. -/
def index_permutation (ts map : tileset) (p : puzzle) : Nat :=
  index_permutation_go (tileset_list ts) (tileset_count ts) map p.tiles

/-- `compute_index` from index.c.  The C function writes through `idx`
and, when `aux->ts` has the zero tile, reads `aux->idxt[maprank]`; a
NULL `idxt` dereference is embedded as `none`. -/
def compute_index (aux : index_aux) (p : puzzle) : Option index :=
  let tsnz := tileset_remove aux.ts 0
  let map := tile_map aux p
  let mr := tileset_rank map
  let pidx := index_permutation tsnz map p
  if (0 : Fin 25) ∈ aux.ts then
    match aux.idxt with
    | some idxt => some { maprank := mr, pidx := pidx, eqidx := (idxt mr).eqclasses (zero_location p) }
    | none => none
  else
    some { maprank := mr, pidx := pidx, eqidx := -1 }

/-- Modelled from the spec: `eqclass_from_index` (index.h is not under
src/) is the set of squares whose class number equals `idx->eqidx` in
the table entry for `idx->maprank`. -/
def eqclass_from_index (aux : index_aux) (idx : index) : tileset :=
  match aux.idxt with
  | some idxt => Finset.univ.filter (fun g => (idxt idx.maprank).eqclasses g = idx.eqidx)
  | none => ∅

/-- `canonical_zero_location` from index.c: the least square of the
equivalence class of `idx`. -/
def canonical_zero_location (aux : index_aux) (idx : index) : Fin 25 :=
  tileset_get_least (eqclass_from_index aux idx)

/-- The loop of `unindex_permutation`: walk the tile numbers `0..24`; a
tile of `ts` consumes the digit `pidx mod n_tiles` and takes the digit-th
least square still in `map`; any other tile takes the least square still
in `cmap`. -/
def unindex_go (ts : tileset) : List (Fin 25) → Nat → Nat → tileset → tileset → List (Fin 25)
  | [], _, _, _, _ => []
  | i :: rest, pidx, n_tiles, map, cmap =>
    if i ∈ ts then
      let pos := rankselect map (pidx % n_tiles)
      pos :: unindex_go ts rest (pidx / n_tiles) (n_tiles - 1) (map.erase pos) cmap
    else
      let pos := tileset_get_least cmap
      pos :: unindex_go ts rest pidx n_tiles map (cmap.erase pos)

/-- `unindex_permutation` from index.c: place the tiles of `ts` onto the
squares of `map` as dictated by `pidx` and all other tiles onto the
complement in ascending order, and fill `grid` as the inverse of
`tiles` (the C loop assigns `p->grid[p->tiles[i]] = i` over the
zero-initialised struct). -/
def unindex_permutation (ts map : tileset) (pidx : Nat) : puzzle :=
  let tl := unindex_go ts (List.finRange 25) pidx (tileset_count ts) map (tileset_complement map)
  let tiles := fun t : Fin 25 => tl.getD t.val 0
  { tiles := tiles
    grid := (List.finRange 25).foldl (fun g i => Function.update g (tiles i) i) (fun _ => 0) }

/-- `invert_index` from index.c: unrank the map, undo the permutation
index, and, when the tileset accounts for the zero tile, move the zero
tile to the canonical square of its equivalence class. -/
def invert_index (aux : index_aux) (idx : index) : puzzle :=
  let tsnz := tileset_remove aux.ts 0
  let map := tileset_unrank (tileset_count tsnz) idx.maprank
  let p := unindex_permutation tsnz map idx.pidx
  if (0 : Fin 25) ∈ aux.ts then move p (canonical_zero_location aux idx) else p

/-- The class count of the table entry for rank `mr` (0 with a NULL
table). -/
def aux_n_eqclass (aux : index_aux) (mr : Nat) : Nat :=
  match aux.idxt with
  | some idxt => (idxt mr).n_eqclass
  | none => 0

/-- A structured index is valid for `aux`: `maprank` and `pidx` are in
range and `eqidx` is a valid class number precisely when the tileset
accounts for the zero tile (otherwise it is the mark -1). -/
abbrev index_valid (aux : index_aux) (idx : index) : Prop :=
  idx.maprank < aux.n_maprank ∧ idx.pidx < aux.n_perm ∧
    ((0 : Fin 25) ∉ aux.ts ∨
      0 ≤ idx.eqidx ∧ idx.eqidx < (aux_n_eqclass aux idx.maprank : Int)) ∧
    ((0 : Fin 25) ∈ aux.ts ∨ idx.eqidx = -1)

/- ------------------------------------------------------------------ -/
/- Section 5: pattern databases (pdb.h)                                -/
/- ------------------------------------------------------------------ -/

/-- The sentinel for a cell not yet filled in (`UNREACHED = 255`). -/
def UNREACHED : Nat := 255

/-- A pattern database (`struct patterndb`): the auxiliary index data
and one byte array per map rank, addressed as
`tables[maprank][offset]`.  The `mapped` flag of the C struct concerns
only deallocation and is omitted. -/
structure patterndb where
  aux : index_aux
  tables : Nat × Nat → Nat

/-- `pdb_entry_pointer` from pdb.h: the address of the entry of `idx`:
with the zero tile accounted for the offset is
`eqidx * n_perm + pidx`, otherwise just `pidx`. -/
def pdb_entry_pointer (pdb : patterndb) (idx : index) : Nat × Nat :=
  if (0 : Fin 25) ∈ pdb.aux.ts then
    (idx.maprank, idx.eqidx.toNat * pdb.aux.n_perm + idx.pidx)
  else
    (idx.maprank, idx.pidx)

/-- `pdb_lookup` from pdb.h: read the entry addressed by `idx`. -/
def pdb_lookup (pdb : patterndb) (idx : index) : Nat :=
  pdb.tables (pdb_entry_pointer pdb idx)

/-- `pdb_update` from pdb.h: unconditionally store `dist` into the entry
addressed by `idx`. -/
def pdb_update (pdb : patterndb) (idx : index) (dist : Nat) : patterndb :=
  { pdb with tables := Function.update pdb.tables (pdb_entry_pointer pdb idx) dist }

/-- `pdb_conditional_update` from pdb.h: store `desired` into the entry
addressed by `idx` exactly when the entry currently reads
`UNREACHED`. -/
def pdb_conditional_update (pdb : patterndb) (idx : index) (desired : Nat) : patterndb :=
  if pdb_lookup pdb idx = UNREACHED then pdb_update pdb idx desired else pdb

/- ------------------------------------------------------------------ -/
/- Section 6: catalogues (catalogue.h)                                 -/
/- ------------------------------------------------------------------ -/

/-- A PDB catalogue (`struct pdb_catalogue`): the number of heuristics
and, for each heuristic, the bitmap `parts` of the PDBs summed by it.
The pattern databases themselves and the reverse bitmaps `heuristics`
are not needed by `catalogue_ph_hval` and are omitted. -/
structure pdb_catalogue where
  n_pdbs : Nat
  n_heuristics : Nat
  parts : Nat → Nat

/-- The per-PDB h values cached for a configuration (the C struct is
called `struct partial_hvals`; its name contains a Lean keyword). -/
structure PartialHvals where
  hvals : Nat → Nat

/-- The inner loop of `catalogue_ph_hval`: sum `hvals` over the set bits
of `parts` by repeatedly reading the least set bit (`ctzll`) and then
clearing it (`parts &= parts - 1`).  The fuel argument only bounds the
recursion depth; fuel `parts` suffices since clearing a bit decreases
the mask. -/
def parts_hvals_go (hvals : Nat → Nat) : Nat → Nat → Nat
  | 0, _ => 0
  | fuel + 1, parts =>
    if parts = 0 then 0
    else hvals (ctz parts) + parts_hvals_go hvals fuel (parts &&& (parts - 1))

/-- The sum of `hvals` over the set bits of the bitmap `parts`. -/
def parts_hvals_sum (hvals : Nat → Nat) (parts : Nat) : Nat :=
  parts_hvals_go hvals parts parts

/-- `catalogue_ph_hval` from catalogue.h: for each heuristic sum the
h values of its parts and keep the running maximum, starting from 0. -/
def catalogue_ph_hval (cat : pdb_catalogue) (ph : PartialHvals) : Nat :=
  (List.range cat.n_heuristics).foldl
    (fun mx i =>
      let sum := parts_hvals_sum ph.hvals (cat.parts i)
      if sum > mx then sum else mx)
    0

/- ------------------------------------------------------------------ -/
/- Section 7: finite state machines (fsm.c)                            -/
/- ------------------------------------------------------------------ -/

/-- The initial state of every table (`FSM_BEGIN`). -/
def FSM_BEGIN : Nat := 0

/-- Modelled from the spec: the rejecting sentinel `FSM_MATCH` of fsm.h
(not under src/); the numeric value only needs to differ from every
ordinary state and from `FSM_UNASSIGNED`. -/
def FSM_MATCH : Nat := 4294967295

/-- Modelled from the spec: the `FSM_UNASSIGNED` sentinel of fsm.h for
transitions that can never be taken. -/
def FSM_UNASSIGNED : Nat := 4294967294

/-- A finite state machine (`struct fsm`): per zero-tile square, the
number of states and the table of 4-entry transition rows. -/
structure fsm where
  sizes : Fin 25 → Nat
  tables : Fin 25 → List (List Nat)

/-- The single state row of `fsm_dummy` (fsm.c `dummy_states`). -/
def dummy_states : List (List Nat) :=
  [[FSM_BEGIN, FSM_BEGIN, FSM_BEGIN, FSM_BEGIN]]

/-- `fsm_dummy` from fsm.c: one state per square, all transitions back
to `FSM_BEGIN`. -/
def fsm_dummy : fsm :=
  { sizes := fun _ => 1
    tables := fun _ => dummy_states }

/-- fsm.c `simple_states_LU` (top left corner). -/
def simple_states_LU : List (List Nat) :=
  [[2, 1, FSM_UNASSIGNED, FSM_UNASSIGNED],
   [FSM_UNASSIGNED, FSM_UNASSIGNED, FSM_UNASSIGNED, FSM_UNASSIGNED],
   [FSM_UNASSIGNED, FSM_UNASSIGNED, FSM_UNASSIGNED, FSM_UNASSIGNED],
   [FSM_MATCH, 1, FSM_UNASSIGNED, FSM_UNASSIGNED],
   [2, FSM_MATCH, FSM_UNASSIGNED, FSM_UNASSIGNED]]

/-- fsm.c `simple_states_U` (top edge). -/
def simple_states_U : List (List Nat) :=
  [[3, 2, 1, FSM_UNASSIGNED],
   [FSM_UNASSIGNED, FSM_UNASSIGNED, FSM_UNASSIGNED, FSM_UNASSIGNED],
   [FSM_MATCH, 2, 1, FSM_UNASSIGNED],
   [3, FSM_MATCH, 1, FSM_UNASSIGNED],
   [3, 2, FSM_MATCH, FSM_UNASSIGNED]]

/-- fsm.c `simple_states_RU` (top right corner). -/
def simple_states_RU : List (List Nat) :=
  [[3, 1, FSM_UNASSIGNED, FSM_UNASSIGNED],
   [FSM_UNASSIGNED, FSM_UNASSIGNED, FSM_UNASSIGNED, FSM_UNASSIGNED],
   [FSM_MATCH, 1, FSM_UNASSIGNED, FSM_UNASSIGNED],
   [FSM_UNASSIGNED, FSM_UNASSIGNED, FSM_UNASSIGNED, FSM_UNASSIGNED],
   [3, FSM_MATCH, FSM_UNASSIGNED, FSM_UNASSIGNED]]

/-- fsm.c `simple_states_L` (left edge; also used for the bottom left
corner under the alias `simple_states_LD`). -/
def simple_states_L : List (List Nat) :=
  [[4, 2, 1, FSM_UNASSIGNED],
   [FSM_MATCH, 2, 1, FSM_UNASSIGNED],
   [FSM_UNASSIGNED, FSM_UNASSIGNED, FSM_UNASSIGNED, FSM_UNASSIGNED],
   [4, FSM_MATCH, 1, FSM_UNASSIGNED],
   [4, 2, FSM_MATCH, FSM_UNASSIGNED]]

/-- fsm.c `simple_states_C` (interior; also used for the bottom edge and
the bottom right corner under the aliases `simple_states_D` and
`simple_states_RD`). -/
def simple_states_C : List (List Nat) :=
  [[4, 3, 2, 1],
   [FSM_MATCH, 3, 2, 1],
   [4, FSM_MATCH, 2, 1],
   [4, 3, FSM_MATCH, 1],
   [4, 3, 2, FSM_MATCH]]

/-- fsm.c `simple_states_R` (right edge). -/
def simple_states_R : List (List Nat) :=
  [[4, 3, 1, FSM_UNASSIGNED],
   [FSM_MATCH, 3, 1, FSM_UNASSIGNED],
   [4, FSM_MATCH, 1, FSM_UNASSIGNED],
   [FSM_UNASSIGNED, FSM_UNASSIGNED, FSM_UNASSIGNED, FSM_UNASSIGNED],
   [4, 3, FSM_MATCH, FSM_UNASSIGNED]]

/-- The per-square table layout of `fsm_simple` from fsm.c. -/
def simple_layout : List (List (List Nat)) :=
  [simple_states_LU, simple_states_U, simple_states_U, simple_states_U, simple_states_RU,
   simple_states_L, simple_states_C, simple_states_C, simple_states_C, simple_states_R,
   simple_states_L, simple_states_C, simple_states_C, simple_states_C, simple_states_R,
   simple_states_L, simple_states_C, simple_states_C, simple_states_C, simple_states_R,
   simple_states_L, simple_states_C, simple_states_C, simple_states_C, simple_states_C]

/-- `fsm_simple` from fsm.c: five states per square, recognising exactly
the length-2 loops (a move directly undoing the previous move). -/
def fsm_simple : fsm :=
  { sizes := fun _ => 5
    tables := fun z => simple_layout.getD z.val [] }

/-- Modelled from the spec: one FSM transition (fsm.h is not under
src/): moving the zero tile from `zloc` to the adjacent square `dst`
reads row `st` of the table of `zloc` at the column of `dst` within
`get_moves zloc`. -/
def fsm_advance (f : fsm) (zloc : Fin 25) (st : Nat) (dst : Fin 25) : Nat :=
  ((f.tables zloc).getD st (List.replicate 4 FSM_UNASSIGNED)).getD
    ((get_moves zloc).indexOf dst) FSM_UNASSIGNED

/-- Run an FSM over a move sequence from state `st` with the zero tile
on `zloc`; the search prunes a branch as soon as the machine reports
`FSM_MATCH`, so the run sticks at `FSM_MATCH` once reached. -/
def fsm_run (f : fsm) : Fin 25 → Nat → List (Fin 25) → Nat
  | _, st, [] => st
  | zloc, st, d :: rest =>
    let st2 := fsm_advance f zloc st d
    if st2 = FSM_MATCH then FSM_MATCH else fsm_run f d st2 rest

/-- A move sequence is legal when every move goes to a square adjacent
to the current zero-tile square. -/
def legal_moves : Fin 25 → List (Fin 25) → Bool
  | _, [] => true
  | z, d :: rest => decide (d ∈ get_moves z) && legal_moves d rest

/- ------------------------------------------------------------------ -/
/- Section 8: the heuristic loader (heuristic.c)                       -/
/- ------------------------------------------------------------------ -/

/-- The errno constants surfaced by the loader (errno.h values). -/
def ENOENT : Nat := 2

/-- Invalid argument errno. -/
def EINVAL : Nat := 22

/-- File name too long errno. -/
def ENAMETOOLONG : Nat := 36

/-- Modelled from the spec: the flag bits of `heu_open` (heuristic.h is
not under src/) as a record of booleans. -/
structure heu_flags where
  create : Bool
  verbose : Bool
  nomorph : Bool
  similar : Bool

/-- The outcomes of the file system and library calls one driver
invocation can make, together with the errno each failing call sets:
`openr` is the read-only open/fopen of the existing heuristic file,
`mmapr` the `pdb_mmap`/`bitpdb_load` of it, `alloc` the
`pdb_allocate`, `conv` the `bitpdb_from_pdb` conversion, `fopenw` the
open for writing of the destination file, `store` the
`pdb_store`/`bitpdb_store` call and `mmapw` the re-mapping of the
freshly written file.  `pathfits` is whether the file name fits into
the path buffer. -/
structure drv_env where
  pathfits : Bool
  openr : Bool
  open_errno : Nat
  mmapr : Bool
  mmapr_errno : Nat
  alloc : Bool
  alloc_errno : Nat
  conv : Bool
  conv_errno : Nat
  fopenw : Bool
  store : Bool
  mmapw : Bool
  mmapw_errno : Nat

/-- What a successful driver call stores into the heuristic handle: the
kind of provider backing `hval`/`hdiff`/`free`. -/
inductive provider where
  | fullpdb : provider
  | bitpdb : provider
deriving DecidableEq

/-- The create path of `common_pdb_driver`: allocate, generate (whose
result the C code does not check), optionally identify, and try to
persist; a missing write handle or a failed `pdb_store` still ends at
the success label, while a failed re-mapping after a successful store
fails the call. -/
def common_pdb_create (heudir : Bool) (e : drv_env) : Except Nat provider :=
  if e.alloc = false then .error e.alloc_errno
  else if (heudir && e.fopenw) = false then .ok .fullpdb
  else if e.store = false then .ok .fullpdb
  else if e.mmapw = false then .error e.mmapw_errno
  else .ok .fullpdb

/-- `common_pdb_driver` from heuristic.c with the file system outcomes
abstracted into `e`: without a heuristic directory only creation can
succeed (else `EINVAL`); otherwise try to open and map the existing
file, falling back to the create path when the file is absent and
`HEU_CREATE` is set. -/
def common_pdb_driver (heudir : Bool) (e : drv_env) (create : Bool) : Except Nat provider :=
  if heudir = false then
    (if create then common_pdb_create heudir e else .error EINVAL)
  else if e.pathfits = false then .error ENAMETOOLONG
  else if e.openr = false then
    (if create then common_pdb_create heudir e else .error e.open_errno)
  else if e.mmapr = false then .error e.mmapr_errno
  else .ok .fullpdb

/-- The create path of `common_bitpdb_driver`: allocate, generate,
convert to a bitpdb (a failed conversion fails the call), and try to
persist; a missing write handle or a failed store function still ends
at the success label, and there is no re-mapping step. -/
def common_bitpdb_create (heudir : Bool) (e : drv_env) : Except Nat provider :=
  if e.alloc = false then .error e.alloc_errno
  else if e.conv = false then .error e.conv_errno
  else if (heudir && e.fopenw) = false then .ok .bitpdb
  else if e.store = false then .ok .bitpdb
  else .ok .bitpdb

/-- `common_bitpdb_driver` from heuristic.c with the file system
outcomes abstracted into `e`. -/
def common_bitpdb_driver (heudir : Bool) (e : drv_env) (create : Bool) : Except Nat provider :=
  if heudir = false then
    (if create then common_bitpdb_create heudir e else .error EINVAL)
  else if e.pathfits = false then .error ENAMETOOLONG
  else if e.openr = false then
    (if create then common_bitpdb_create heudir e else .error e.open_errno)
  else if e.mmapr = false then .error e.mmapr_errno
  else .ok .bitpdb

/-- Which common driver a table entry dispatches to. -/
inductive drv_kind where
  | pdbk : drv_kind
  | bitpdbk : drv_kind
deriving DecidableEq

/-- One entry of the `drivers[]` table of heuristic.c. -/
structure driver_entry where
  typestr : String
  kind : drv_kind
  similar : Bool
  zerotile : Bool
  identify : Bool
deriving DecidableEq

/-- The `drivers[]` table of heuristic.c in source order (the NULL
sentinel terminating the C array is represented by the end of the
list). -/
def drivers : List driver_entry :=
  [⟨"pdb", .pdbk, false, false, false⟩,
   ⟨"ipdb", .pdbk, false, false, true⟩,
   ⟨"zpdb", .pdbk, false, true, false⟩,
   ⟨"bpdb", .bitpdbk, false, false, false⟩,
   ⟨"zbpdb", .bitpdbk, false, true, false⟩,
   ⟨"bpdb.zst", .bitpdbk, false, false, false⟩,
   ⟨"zbpdb.zst", .bitpdbk, false, true, false⟩,
   ⟨"pdb", .bitpdbk, true, false, false⟩,
   ⟨"zpdb", .bitpdbk, true, true, false⟩,
   ⟨"bpdb.zst", .bitpdbk, true, false, false⟩,
   ⟨"zbpdb.zst", .bitpdbk, true, true, false⟩,
   ⟨"bpdb", .pdbk, true, false, false⟩,
   ⟨"zbpdb", .pdbk, true, true, false⟩,
   ⟨"bpdb.zst", .pdbk, true, false, false⟩,
   ⟨"zbpdb.zst", .pdbk, true, true, false⟩,
   ⟨"pdb", .bitpdbk, true, false, false⟩,
   ⟨"zpdb", .bitpdbk, true, true, false⟩,
   ⟨"bpdb", .bitpdbk, true, false, false⟩,
   ⟨"zbpdb", .bitpdbk, true, true, false⟩]

/-- Dispatch one driver call (the `drvfun` function pointer). -/
def drv_call (ent : driver_entry) (heudir : Bool) (e : drv_env) (create : Bool) :
    Except Nat provider :=
  match ent.kind with
  | .pdbk => common_pdb_driver heudir e create
  | .bitpdbk => common_bitpdb_driver heudir e create

/-- The first two loops of `heu_open`: walk the indexed driver table,
call every entry matching `pred` with `HEU_CREATE` cleared, and return
the first success. -/
def heu_try_open (heudir : Bool) (env : Nat → drv_env) (pred : driver_entry → Bool) :
    List (Nat × driver_entry) → Option provider
  | [] => none
  | (i, ent) :: rest =>
    if pred ent then
      match drv_call ent heudir (env i) false with
      | .ok pr => some pr
      | .error _ => heu_try_open heudir env pred rest
    else heu_try_open heudir env pred rest

/-- The third loop of `heu_open`: the first entry matching `pred` is
called with `HEU_CREATE` set and its result, success or failure, is
final. -/
def heu_try_create (heudir : Bool) (env : Nat → drv_env) (pred : driver_entry → Bool) :
    List (Nat × driver_entry) → Option (Except Nat provider)
  | [] => none
  | (i, ent) :: rest =>
    if pred ent then some (drv_call ent heudir (env i) true)
    else heu_try_create heudir env pred rest

/-- The exact-match predicate of the first and third loops of
`heu_open`: skip `HEU_SIMILAR` entries and entries whose type string
differs. -/
def heu_exact_pred (typestr : String) (ent : driver_entry) : Bool :=
  !ent.similar && typestr == ent.typestr

/-- The similar-match predicate of the second loop of `heu_open`. -/
def heu_similar_pred (typestr : String) (ent : driver_entry) : Bool :=
  ent.similar && typestr == ent.typestr

/-- `heu_open` from heuristic.c with the per-entry file system outcomes
abstracted into `env`: try an exact match, then (with `HEU_SIMILAR`) a
similar representation, then (with `HEU_CREATE`) create through the
first exactly matching driver; otherwise fail with `ENOENT` when some
driver matched the type string (`type_match`) and with `EINVAL` when
none did.  The morphism bookkeeping of the C function only affects
file names and is not modelled. -/
def heu_open (typestr : String) (flags : heu_flags) (heudir : Bool) (env : Nat → drv_env) :
    Except Nat provider :=
  match heu_try_open heudir env (heu_exact_pred typestr) drivers.enum with
  | some pr => .ok pr
  | none =>
    match
      (if flags.similar then heu_try_open heudir env (heu_similar_pred typestr) drivers.enum
       else none) with
    | some pr => .ok pr
    | none =>
      match
        (if flags.create then heu_try_create heudir env (heu_exact_pred typestr) drivers.enum
         else none) with
      | some r => r
      | none =>
        if drivers.any (heu_exact_pred typestr) ||
            (flags.similar && drivers.any (heu_similar_pred typestr)) then
          .error ENOENT
        else .error EINVAL

/- ------------------------------------------------------------------ -/
/- Lemmas about tileset lists                                          -/
/- ------------------------------------------------------------------ -/

theorem tileset_list_mem {ts : tileset} {a : Fin 25} : a ∈ tileset_list ts ↔ a ∈ ts := by
  simp [tileset_list, List.mem_filter]

theorem tileset_list_nodup (ts : tileset) : (tileset_list ts).Nodup :=
  (List.nodup_finRange 25).filter _

theorem tileset_list_toFinset (ts : tileset) : (tileset_list ts).toFinset = ts := by
  ext a
  simp [tileset_list_mem]

theorem tileset_list_length (ts : tileset) : (tileset_list ts).length = ts.card := by
  have h := List.toFinset_card_of_nodup (tileset_list_nodup ts)
  rw [tileset_list_toFinset] at h
  exact h.symm

theorem tileset_get_least_mem {ts : tileset} (h : ts.Nonempty) : tileset_get_least ts ∈ ts := by
  rcases h with ⟨a, ha⟩
  have hmem : a ∈ tileset_list ts := tileset_list_mem.mpr ha
  have hne : tileset_list ts ≠ [] := List.ne_nil_of_mem hmem
  rcases List.exists_cons_of_ne_nil hne with ⟨b, l, hl⟩
  have hb : tileset_get_least ts = b := by simp [tileset_get_least, hl]
  rw [hb]
  exact tileset_list_mem.mp (by simp [hl])

theorem rankselect_mem {m : tileset} {i : Nat} (h : i < m.card) : rankselect m i ∈ m := by
  have hlen : i < (tileset_list m).length := by rwa [tileset_list_length]
  have hget : rankselect m i = (tileset_list m).get ⟨i, hlen⟩ := by
    simp [rankselect, List.getD_eq_getElem?_getD, List.getElem?_eq_getElem hlen]
  rw [hget]
  exact tileset_list_mem.mp (List.get_mem _ _ _)

/- ------------------------------------------------------------------ -/
/- Lemmas about the combinatorial number system                        -/
/- ------------------------------------------------------------------ -/

theorem cns_digit_go_le {k r : Nat} (hk : 0 < k) :
    ∀ a, Nat.choose (cns_digit_go k r a) k ≤ r := by
  intro a
  induction a with
  | zero => simp [cns_digit_go, Nat.choose_eq_zero_of_lt hk]
  | succ a ih =>
    by_cases h : Nat.choose (a + 1) k ≤ r
    · simp [cns_digit_go, h]
    · simpa [cns_digit_go, h] using ih

theorem cns_digit_go_max {k r : Nat} :
    ∀ a x, x ≤ a → Nat.choose x k ≤ r → x ≤ cns_digit_go k r a := by
  intro a
  induction a with
  | zero => intro x hx _; simpa [cns_digit_go] using hx
  | succ a ih =>
    intro x hx hc
    by_cases h : Nat.choose (a + 1) k ≤ r
    · simpa [cns_digit_go, h] using hx
    · have hxa : x ≤ a := by
        rcases Nat.eq_or_lt_of_le hx with h1 | h1
        · exact absurd (h1 ▸ hc) h
        · omega
      simpa [cns_digit_go, h] using ih x hxa hc

theorem cns_bounds {k r b c : Nat} (hb : b ≤ 25) (hr : r < Nat.choose b (k + 1))
    (hle : Nat.choose c (k + 1) ≤ r)
    (hmax : ∀ x, x ≤ 24 → Nat.choose x (k + 1) ≤ r → x ≤ c) :
    Nat.choose c (k + 1) ≤ r ∧ r < Nat.choose (c + 1) (k + 1) ∧ c < b := by
  have hab : c < b := by
    by_contra hge
    exact absurd (Nat.le_trans (Nat.choose_le_choose (k + 1) (Nat.le_of_not_lt hge)) hle)
      (Nat.not_le_of_lt hr)
  refine ⟨hle, ?_, hab⟩
  by_contra hgt
  have h2 : Nat.choose (c + 1) (k + 1) ≤ r := Nat.le_of_not_lt hgt
  have hc24 : c + 1 ≤ 24 := by
    by_contra h25
    have h3 : 25 ≤ c + 1 := by omega
    have h4 : Nat.choose b (k + 1) ≤ r :=
      Nat.le_trans (Nat.choose_le_choose (k + 1) (Nat.le_trans hb h3)) h2
    exact absurd hr (Nat.not_lt_of_le h4)
  have h5 : c + 1 ≤ c := hmax (c + 1) hc24 h2
  omega

theorem cns_digit_spec {k r b : Nat} (hb : b ≤ 25) (hr : r < Nat.choose b (k + 1)) :
    Nat.choose (cns_digit (k + 1) r) (k + 1) ≤ r ∧
      r < Nat.choose (cns_digit (k + 1) r + 1) (k + 1) ∧ cns_digit (k + 1) r < b := by
  unfold cns_digit
  exact cns_bounds hb hr (cns_digit_go_le (Nat.succ_pos k) 24)
    (fun x hx hc => cns_digit_go_max 24 x hx hc)

theorem unrank_list_spec :
    ∀ k r b, b ≤ 25 → r < Nat.choose b k →
      (unrank_list k r).length = k ∧ (∀ a ∈ unrank_list k r, a < b) ∧
        (unrank_list k r).Pairwise (fun a c => c < a) := by
  intro k
  induction k with
  | zero => intro r b _ _; simp [unrank_list]
  | succ k ih =>
    intro r b hb hr
    obtain ⟨h1, h2, h3⟩ := cns_digit_spec hb hr
    have hlist : unrank_list (k + 1) r =
        cns_digit (k + 1) r :: unrank_list k (r - Nat.choose (cns_digit (k + 1) r) (k + 1)) := by
      simp only [unrank_list]
    have ha25 : cns_digit (k + 1) r ≤ 25 := Nat.le_of_lt (Nat.lt_of_lt_of_le h3 hb)
    have hr2 : r - Nat.choose (cns_digit (k + 1) r) (k + 1) <
        Nat.choose (cns_digit (k + 1) r) k := by
      have hc : Nat.choose (cns_digit (k + 1) r + 1) (k + 1) =
          Nat.choose (cns_digit (k + 1) r) k + Nat.choose (cns_digit (k + 1) r) (k + 1) :=
        Nat.choose_succ_succ _ _
      omega
    obtain ⟨ih1, ih2, ih3⟩ := ih (r - Nat.choose (cns_digit (k + 1) r) (k + 1)) _ ha25 hr2
    rw [hlist]
    refine ⟨by simp [ih1], ?_, ?_⟩
    · intro x hx
      rcases List.mem_cons.mp hx with h | h
      · exact h ▸ h3
      · exact Nat.lt_of_lt_of_le (ih2 x h) (Nat.le_of_lt h3)
    · exact List.pairwise_cons.mpr ⟨fun x hx => ih2 x hx, ih3⟩

theorem unrank_filterMap_val {l : List Nat} (hl : ∀ a ∈ l, a < 25) :
    ((l.filterMap (fun a => if h : a < 25 then some (⟨a, h⟩ : Fin 25) else none)).map
      Fin.val) = l := by
  induction l with
  | nil => simp
  | cons x xs ih =>
    have hx : x < 25 := hl x (List.mem_cons_self x xs)
    have hxs : ∀ a ∈ xs, a < 25 := fun a ha => hl a (List.mem_cons_of_mem x ha)
    simp [List.filterMap_cons, hx, ih hxs]

theorem tileset_unrank_card {k r : Nat} (hr : r < Nat.choose 25 k) :
    (tileset_unrank k r).card = k := by
  obtain ⟨h1, h2, h3⟩ := unrank_list_spec k r 25 (Nat.le_refl 25) hr
  have hval := unrank_filterMap_val h2
  have hnd : (unrank_list k r).Nodup :=
    h3.imp (fun h => Nat.ne_of_gt h)
  have hnd2 : ((unrank_list k r).filterMap
      (fun a => if h : a < 25 then some (⟨a, h⟩ : Fin 25) else none)).Nodup := by
    refine List.Nodup.of_map Fin.val ?_
    rw [hval]
    exact hnd
  have hlen : ((unrank_list k r).filterMap
      (fun a => if h : a < 25 then some (⟨a, h⟩ : Fin 25) else none)).length = k := by
    have := congrArg List.length hval
    simpa [h1] using this
  rw [tileset_unrank, List.toFinset_card_of_nodup hnd2, hlen]

theorem tileset_unrank_mem_val {k r : Nat} {x : Fin 25} (hx : x ∈ tileset_unrank k r) :
    x.val ∈ unrank_list k r := by
  rw [tileset_unrank, List.mem_toFinset] at hx
  rcases List.mem_filterMap.mp hx with ⟨a, ha, hax⟩
  by_cases h : a < 25
  · simp only [dif_pos h, Option.some_inj] at hax
    rw [← hax]
    exact ha
  · simp [dif_neg h] at hax

/- ------------------------------------------------------------------ -/
/- Lemmas about unindex_permutation                                    -/
/- ------------------------------------------------------------------ -/

theorem unindex_go_spec (ts : tileset) :
    ∀ (l : List (Fin 25)) (pidx : Nat) (m cm : tileset),
      Disjoint m cm →
      (l.filter (fun i => decide (i ∈ ts))).length = m.card →
      (l.filter (fun i => decide (i ∉ ts))).length = cm.card →
      (unindex_go ts l pidx m.card m cm).length = l.length ∧
        (unindex_go ts l pidx m.card m cm).Nodup ∧
        (unindex_go ts l pidx m.card m cm).toFinset = m ∪ cm := by
  intro l
  induction l with
  | nil =>
    intro pidx m cm _ hts hnts
    simp only [List.filter_nil, List.length_nil] at hts hnts
    have hm : m = ∅ := Finset.card_eq_zero.mp hts.symm
    have hcm : cm = ∅ := Finset.card_eq_zero.mp hnts.symm
    subst hm
    subst hcm
    simp [unindex_go]
  | cons i rest ih =>
    intro pidx m cm hdisj hts hnts
    by_cases hi : i ∈ ts
    · have hts2 : (rest.filter (fun j => decide (j ∈ ts))).length + 1 = m.card := by
        simpa [List.filter_cons, hi] using hts
      have hnts2 : (rest.filter (fun j => decide (j ∉ ts))).length = cm.card := by
        simpa [List.filter_cons, hi] using hnts
      have hmpos : 0 < m.card := by omega
      have hmod : pidx % m.card < m.card := Nat.mod_lt _ hmpos
      have hpos : rankselect m (pidx % m.card) ∈ m := rankselect_mem hmod
      have hcard2 : (m.erase (rankselect m (pidx % m.card))).card = m.card - 1 :=
        Finset.card_erase_of_mem hpos
      have hdisj2 : Disjoint (m.erase (rankselect m (pidx % m.card))) cm :=
        Finset.disjoint_of_subset_left (Finset.erase_subset _ _) hdisj
      have hts3 : (rest.filter (fun j => decide (j ∈ ts))).length =
          (m.erase (rankselect m (pidx % m.card))).card := by omega
      obtain ⟨ih1, ih2, ih3⟩ :=
        ih (pidx / m.card) (m.erase (rankselect m (pidx % m.card))) cm hdisj2 hts3 hnts2
      have hunf : unindex_go ts (i :: rest) pidx m.card m cm =
          rankselect m (pidx % m.card) ::
            unindex_go ts rest (pidx / m.card) (m.card - 1)
              (m.erase (rankselect m (pidx % m.card))) cm := by
        simp [unindex_go, hi]
      rw [hunf, ← hcard2]
      refine ⟨by simp [ih1], ?_, ?_⟩
      · rw [List.nodup_cons]
        refine ⟨?_, ih2⟩
        intro hmem
        have h4 : rankselect m (pidx % m.card) ∈
            (m.erase (rankselect m (pidx % m.card))) ∪ cm := by
          rw [← ih3]
          exact List.mem_toFinset.mpr hmem
        rcases Finset.mem_union.mp h4 with h5 | h5
        · exact absurd h5 (Finset.not_mem_erase _ _)
        · exact absurd h5 (Finset.disjoint_left.mp hdisj hpos)
      · rw [List.toFinset_cons, ih3, ← Finset.insert_union, Finset.insert_erase hpos]
    · have hts2 : (rest.filter (fun j => decide (j ∈ ts))).length = m.card := by
        simpa [List.filter_cons, hi] using hts
      have hnts2 : (rest.filter (fun j => decide (j ∉ ts))).length + 1 = cm.card := by
        simpa [List.filter_cons, hi] using hnts
      have hcmpos : 0 < cm.card := by omega
      have hne : cm.Nonempty := Finset.card_pos.mp hcmpos
      have hpos : tileset_get_least cm ∈ cm := tileset_get_least_mem hne
      have hcard2 : (cm.erase (tileset_get_least cm)).card = cm.card - 1 :=
        Finset.card_erase_of_mem hpos
      have hdisj2 : Disjoint m (cm.erase (tileset_get_least cm)) :=
        Finset.disjoint_of_subset_right (Finset.erase_subset _ _) hdisj
      have hnts3 : (rest.filter (fun j => decide (j ∉ ts))).length =
          (cm.erase (tileset_get_least cm)).card := by omega
      obtain ⟨ih1, ih2, ih3⟩ :=
        ih pidx m (cm.erase (tileset_get_least cm)) hdisj2 hts2 hnts3
      have hunf : unindex_go ts (i :: rest) pidx m.card m cm =
          tileset_get_least cm ::
            unindex_go ts rest pidx m.card m (cm.erase (tileset_get_least cm)) := by
        simp [unindex_go, hi]
      rw [hunf]
      refine ⟨by simp [ih1], ?_, ?_⟩
      · rw [List.nodup_cons]
        refine ⟨?_, ih2⟩
        intro hmem
        have h4 : tileset_get_least cm ∈ m ∪ cm.erase (tileset_get_least cm) := by
          rw [← ih3]
          exact List.mem_toFinset.mpr hmem
        rcases Finset.mem_union.mp h4 with h5 | h5
        · exact absurd h5 (Finset.disjoint_right.mp hdisj hpos)
        · exact absurd h5 (Finset.not_mem_erase _ _)
      · rw [List.toFinset_cons, ih3, Finset.union_comm m _, ← Finset.insert_union,
          Finset.insert_erase hpos, Finset.union_comm]

theorem fold_update_ne {f : Fin 25 → Fin 25} :
    ∀ (l : List (Fin 25)) (g0 : Fin 25 → Fin 25) (x : Fin 25), (∀ j ∈ l, f j ≠ x) →
      (l.foldl (fun g j => Function.update g (f j) j) g0) x = g0 x := by
  intro l
  induction l with
  | nil => intro g0 x _; rfl
  | cons j rest ih =>
    intro g0 x hne
    have h1 : f j ≠ x := hne j (List.mem_cons_self j rest)
    have h2 : ∀ a ∈ rest, f a ≠ x := fun a ha => hne a (List.mem_cons_of_mem j ha)
    simp only [List.foldl_cons]
    rw [ih _ x h2, Function.update_noteq (Ne.symm h1)]

theorem fold_update_mem {f : Fin 25 → Fin 25} (hf : Function.Injective f) :
    ∀ (l : List (Fin 25)) (g0 : Fin 25 → Fin 25) (i : Fin 25), l.Nodup → i ∈ l →
      (l.foldl (fun g j => Function.update g (f j) j) g0) (f i) = i := by
  intro l
  induction l with
  | nil => intro g0 i _ hmem; exact absurd hmem (List.not_mem_nil i)
  | cons j rest ih =>
    intro g0 i hnd hmem
    simp only [List.foldl_cons]
    rcases List.mem_cons.mp hmem with h | h
    · subst h
      have hni : i ∉ rest := (List.nodup_cons.mp hnd).1
      have hne : ∀ a ∈ rest, f a ≠ f i := by
        intro a ha hfa
        exact hni ((hf hfa) ▸ ha)
      rw [fold_update_ne rest _ (f i) hne, Function.update_same]
    · exact ih _ i (List.nodup_cons.mp hnd).2 h

theorem unindex_tl_spec (ts map : tileset) (pidx : Nat) (hcard : map.card = ts.card) :
    (unindex_go ts (List.finRange 25) pidx (tileset_count ts) map
        (tileset_complement map)).length = 25 ∧
      (unindex_go ts (List.finRange 25) pidx (tileset_count ts) map
        (tileset_complement map)).Nodup := by
  have hts : ((List.finRange 25).filter (fun i => decide (i ∈ ts))).length = map.card := by
    rw [hcard]
    exact tileset_list_length ts
  have hnts1 : (List.finRange 25).filter (fun i => decide (i ∉ ts)) = tileset_list tsᶜ := by
    unfold tileset_list
    apply List.filter_congr
    intro i _
    simp
  have hnts : ((List.finRange 25).filter (fun i => decide (i ∉ ts))).length =
      (tileset_complement map).card := by
    rw [hnts1, tileset_list_length]
    unfold tileset_complement
    rw [Finset.card_compl, Finset.card_compl, Fintype.card_fin, hcard]
  have hco : tileset_count ts = map.card := hcard.symm
  rw [hco]
  obtain ⟨h1, h2, _⟩ := unindex_go_spec ts (List.finRange 25) pidx map (tileset_complement map)
    (by unfold tileset_complement; exact disjoint_compl_right) hts hnts
  exact ⟨by rw [h1]; simp, h2⟩

theorem unindex_tiles_injective (ts map : tileset) (pidx : Nat) (hcard : map.card = ts.card) :
    Function.Injective (unindex_permutation ts map pidx).tiles := by
  obtain ⟨hlen, hnd⟩ := unindex_tl_spec ts map pidx hcard
  intro a b hab
  have hga : (unindex_permutation ts map pidx).tiles a =
      (unindex_go ts (List.finRange 25) pidx (tileset_count ts) map
        (tileset_complement map)).get ⟨a.val, by rw [hlen]; exact a.isLt⟩ := by
    show (unindex_go ts (List.finRange 25) pidx (tileset_count ts) map
        (tileset_complement map)).getD a.val 0 = _
    rw [List.getD_eq_getElem?_getD, List.getElem?_eq_getElem (by rw [hlen]; exact a.isLt)]
    simp [List.get_eq_getElem]
  have hgb : (unindex_permutation ts map pidx).tiles b =
      (unindex_go ts (List.finRange 25) pidx (tileset_count ts) map
        (tileset_complement map)).get ⟨b.val, by rw [hlen]; exact b.isLt⟩ := by
    show (unindex_go ts (List.finRange 25) pidx (tileset_count ts) map
        (tileset_complement map)).getD b.val 0 = _
    rw [List.getD_eq_getElem?_getD, List.getElem?_eq_getElem (by rw [hlen]; exact b.isLt)]
    simp [List.get_eq_getElem]
  rw [hga, hgb] at hab
  have hidx := (List.Nodup.get_inj_iff hnd).mp hab
  have hval : a.val = b.val := Fin.mk_eq_mk.mp hidx
  exact Fin.ext hval

theorem unindex_puzzle_ok (ts map : tileset) (pidx : Nat) (hcard : map.card = ts.card) :
    puzzle_ok (unindex_permutation ts map pidx) := by
  have hinj := unindex_tiles_injective ts map pidx hcard
  have hleft : ∀ t, (unindex_permutation ts map pidx).grid
      ((unindex_permutation ts map pidx).tiles t) = t := by
    intro t
    exact fold_update_mem hinj (List.finRange 25) _ t (List.nodup_finRange 25)
      (List.mem_finRange t)
  refine ⟨hleft, ?_⟩
  have hsurj : Function.Surjective (unindex_permutation ts map pidx).tiles :=
    Finite.surjective_of_injective hinj
  intro g
  rcases hsurj g with ⟨t, ht⟩
  rw [← ht, hleft t]

theorem puzzle_ok_bijective {p : puzzle} (h : puzzle_ok p) :
    Function.Bijective p.tiles ∧ Function.Bijective p.grid := by
  constructor
  · exact Function.bijective_iff_has_inverse.mpr ⟨p.grid, h.1, h.2⟩
  · exact Function.bijective_iff_has_inverse.mpr ⟨p.tiles, h.2, h.1⟩

theorem move_puzzle_ok {p : puzzle} (h : puzzle_ok p) (loc : Fin 25) :
    puzzle_ok (move p loc) := by
  obtain ⟨h1, h2⟩ := h
  have htinj : Function.Injective p.tiles := Function.LeftInverse.injective h1
  have hginj : Function.Injective p.grid := Function.LeftInverse.injective h2
  have hzg : p.grid (p.tiles 0) = 0 := h1 0
  constructor
  · intro t
    show Function.update (Function.update p.grid (p.tiles 0) (p.grid loc)) loc 0
        (Function.update (Function.update p.tiles (p.grid loc) (p.tiles 0)) 0 loc t) = t
    by_cases ht0 : t = 0
    · subst ht0
      rw [Function.update_same, Function.update_same]
    · rw [Function.update_noteq ht0]
      by_cases httile : t = p.grid loc
      · subst httile
        have hzne : p.tiles 0 ≠ loc := fun hz => ht0 (by rw [← hz]; exact hzg)
        rw [Function.update_same, Function.update_noteq hzne, Function.update_same]
      · have hne1 : p.tiles t ≠ loc := fun hl => httile (by rw [← hl, h1 t])
        have hne2 : p.tiles t ≠ p.tiles 0 := fun hl => ht0 (htinj hl)
        rw [Function.update_noteq httile, Function.update_noteq hne1,
          Function.update_noteq hne2]
        exact h1 t
  · intro g
    show Function.update (Function.update p.tiles (p.grid loc) (p.tiles 0)) 0 loc
        (Function.update (Function.update p.grid (p.tiles 0) (p.grid loc)) loc 0 g) = g
    by_cases hgl : g = loc
    · subst hgl
      rw [Function.update_same, Function.update_same]
    · rw [Function.update_noteq hgl]
      by_cases hgz : g = p.tiles 0
      · subst hgz
        have hne : p.grid loc ≠ 0 := fun hl => hgl (hginj (by rw [hl, hzg])).symm
        rw [Function.update_same, Function.update_noteq hne, Function.update_same]
      · have hne1 : p.grid g ≠ 0 := fun hl => hgz ((h2 g).symm.trans (by rw [hl]))
        have hne2 : p.grid g ≠ p.grid loc := fun hl => hgl (hginj hl)
        rw [Function.update_noteq hgz, Function.update_noteq hne1,
          Function.update_noteq hne2]
        exact h2 g

theorem make_index_aux_ts (ts : tileset) : (make_index_aux ts).ts = ts := rfl

theorem make_index_aux_n_maprank (ts : tileset) :
    (make_index_aux ts).n_maprank = combination_count (tileset_count (tileset_remove ts 0)) :=
  rfl

theorem make_index_aux_n_perm (ts : tileset) :
    (make_index_aux ts).n_perm = factorials (tileset_count (tileset_remove ts 0)) := rfl

theorem make_index_aux_idxt (ts : tileset) :
    (make_index_aux ts).idxt = make_index_table ts := rfl

theorem invert_index_puzzle_ok (ts : tileset) (idx : index)
    (hmr : idx.maprank < combination_count (tileset_count (tileset_remove ts 0))) :
    puzzle_ok (invert_index (make_index_aux ts) idx) := by
  have hchoose : idx.maprank <
      Nat.choose 25 (tileset_count (tileset_remove (make_index_aux ts).ts 0)) := hmr
  have hcard : (tileset_unrank (tileset_count (tileset_remove (make_index_aux ts).ts 0))
        idx.maprank).card = (tileset_remove (make_index_aux ts).ts 0).card :=
    tileset_unrank_card hchoose
  have hok : puzzle_ok (unindex_permutation (tileset_remove (make_index_aux ts).ts 0)
      (tileset_unrank (tileset_count (tileset_remove (make_index_aux ts).ts 0)) idx.maprank)
      idx.pidx) :=
    unindex_puzzle_ok _ _ _ hcard
  unfold invert_index
  by_cases h0 : (0 : Fin 25) ∈ (make_index_aux ts).ts
  · simp only [h0, if_true]
    exact move_puzzle_ok hok _
  · simp only [h0, if_false]
    exact hok

/-- Claim C6: for every tileset ts and every valid structured index idx
for it, the puzzle produced by invert_index satisfies the board
invariants: tiles and grid are permutations of the 25 squares and
mutual inverses (grid[tiles[t]] = t for every t), and exactly one grid
entry holds the zero tile. -/
theorem c6_invert_index_puzzle_invariants (ts : tileset) (idx : index)
    (hv : index_valid (make_index_aux ts) idx) :
    Function.Bijective (invert_index (make_index_aux ts) idx).tiles ∧
      Function.Bijective (invert_index (make_index_aux ts) idx).grid ∧
      (∀ t, (invert_index (make_index_aux ts) idx).grid
        ((invert_index (make_index_aux ts) idx).tiles t) = t) ∧
      ∃! g, (invert_index (make_index_aux ts) idx).grid g = 0 := by
  have hmr : idx.maprank < combination_count (tileset_count (tileset_remove ts 0)) := by
    have h := hv.1
    rwa [make_index_aux_n_maprank] at h
  have hok := invert_index_puzzle_ok ts idx hmr
  obtain ⟨hbt, hbg⟩ := puzzle_ok_bijective hok
  exact ⟨hbt, hbg, hok.1, hbg.existsUnique 0⟩

/-- Witness for C6 at the concrete tileset containing tile 1 only and
the valid index (0, 0, -1). -/
theorem c6_invert_index_puzzle_invariants_witness :
    index_valid (make_index_aux {1}) ⟨0, 0, -1⟩ ∧
      ∀ t, (invert_index (make_index_aux {1}) ⟨0, 0, -1⟩).grid
        ((invert_index (make_index_aux {1}) ⟨0, 0, -1⟩).tiles t) = t :=
  ⟨by decide, (c6_invert_index_puzzle_invariants {1} ⟨0, 0, -1⟩ (by decide)).2.2.1⟩

theorem zero_location_move (p : puzzle) (loc : Fin 25) : zero_location (move p loc) = loc := by
  show Function.update (Function.update p.tiles (p.grid loc) (p.tiles 0)) 0 loc 0 = loc
  rw [Function.update_same]

/-- Claim C5: for every tileset accounting for the zero tile and every
valid index, invert_index places the zero tile on the lexicographically
smallest square of the equivalence class of the index (the least set
bit of the class's position set). -/
theorem c5_invert_index_zero_at_least_eqclass (ts : tileset) (idx : index)
    (h0 : tileset_has ts 0) (_hv : index_valid (make_index_aux ts) idx) :
    zero_location (invert_index (make_index_aux ts) idx) =
      tileset_get_least (eqclass_from_index (make_index_aux ts) idx) := by
  have h0a : (0 : Fin 25) ∈ (make_index_aux ts).ts := h0
  unfold invert_index
  rw [if_pos h0a]
  exact zero_location_move _ _

/-- Witness for C5 at the tileset of the zero tile and tile 1 with the
valid index (0, 0, 0). -/
theorem c5_invert_index_zero_at_least_eqclass_witness :
    tileset_has {0, 1} 0 ∧ index_valid (make_index_aux {0, 1}) ⟨0, 0, 0⟩ ∧
      zero_location (invert_index (make_index_aux {0, 1}) ⟨0, 0, 0⟩) =
        tileset_get_least (eqclass_from_index (make_index_aux {0, 1}) ⟨0, 0, 0⟩) :=
  ⟨by decide, by decide,
    c5_invert_index_zero_at_least_eqclass {0, 1} ⟨0, 0, 0⟩ (by decide) (by decide)⟩

/-- Claim C1 is refuted by the code: for the tileset of the zero tile
and tile 1, the valid index (maprank 1, pidx 0, eqidx 0) does not
survive the round trip: inverting it and recomputing yields
(maprank 0, pidx 1, eqidx -1).  The cause is the portable fallback of
tile_map, which collects the square of the zero tile as well, against
the function's own comment and the vectorised code paths: after
invert_index parks the zero tile on square 0, compute_index ranks the
two-square map {0, 1} instead of the one-square map {1}. -/
theorem c1_compute_invert_roundtrip_fails :
    index_valid (make_index_aux {0, 1}) ⟨1, 0, 0⟩ ∧
      compute_index (make_index_aux {0, 1})
        (invert_index (make_index_aux {0, 1}) ⟨1, 0, 0⟩) = some ⟨0, 1, -1⟩ ∧
      compute_index (make_index_aux {0, 1})
        (invert_index (make_index_aux {0, 1}) ⟨1, 0, 0⟩) ≠ some ⟨1, 0, 0⟩ := by
  decide

/-- Claim C3 is refuted by the code: for the tileset of the zero tile
and tile 1 (n_maprank = 25) and the board that holds tile t on square
24 - t, compute_index produces maprank 299 and eqidx -1, both out of
the claimed ranges.  The cause is again the tile_map fallback counting
the zero tile's square: the map {23, 24} is ranked among two-square
maps although the auxiliary data is sized for one-square maps. -/
theorem c3_compute_index_range_fails :
    puzzle_ok { tiles := fun t => t.rev, grid := fun g => g.rev } ∧
      compute_index (make_index_aux {0, 1})
        { tiles := fun t => t.rev, grid := fun g => g.rev } = some ⟨299, 0, -1⟩ ∧
      (make_index_aux {0, 1}).n_maprank = 25 ∧ ¬(299 < (make_index_aux {0, 1}).n_maprank) := by
  decide

/-- Claim C10: for a tileset not accounting for the zero tile,
make_index_table returns NULL, make_index_aux stores that NULL in
aux->idxt, and compute_index never dereferences it: the computation
stays well defined (returns a value) for every configuration. -/
theorem c10_compute_index_null_idxt_safe (ts : tileset) (h : ¬tileset_has ts 0) :
    (make_index_aux ts).idxt = none ∧
      ∀ p : puzzle, (compute_index (make_index_aux ts) p).isSome := by
  constructor
  · rw [make_index_aux_idxt]
    unfold make_index_table
    rw [if_neg h]
  · intro p
    unfold compute_index
    rw [if_neg (show (0 : Fin 25) ∉ (make_index_aux ts).ts from h)]
    rfl

/-- Witness for C10 at the tileset containing tile 1 only, with the
second component instantiated at the solved configuration. -/
theorem c10_compute_index_null_idxt_safe_witness :
    ¬tileset_has {1} 0 ∧ (make_index_aux {1}).idxt = none ∧
      (compute_index (make_index_aux {1}) solved_puzzle).isSome :=
  ⟨by decide, (c10_compute_index_null_idxt_safe {1} (by decide)).1,
    (c10_compute_index_null_idxt_safe {1} (by decide)).2 solved_puzzle⟩

/-- Claim C4: pdb_conditional_update stores the desired value into the
entry addressed by idx exactly when that entry currently holds
UNREACHED, leaves it unchanged otherwise, and modifies no other
entry. -/
theorem c4_pdb_conditional_update_spec (pdb : patterndb) (idx : index) (d : Nat) :
    ((pdb_conditional_update pdb idx d).tables (pdb_entry_pointer pdb idx) =
      if pdb_lookup pdb idx = UNREACHED then d else pdb_lookup pdb idx) ∧
    ∀ a : Nat × Nat, a ≠ pdb_entry_pointer pdb idx →
      (pdb_conditional_update pdb idx d).tables a = pdb.tables a := by
  constructor
  · unfold pdb_conditional_update
    by_cases h : pdb_lookup pdb idx = UNREACHED
    · rw [if_pos h, if_pos h]
      unfold pdb_update
      exact Function.update_same _ _ _
    · rw [if_neg h, if_neg h]
      rfl
  · intro a ha
    unfold pdb_conditional_update
    by_cases h : pdb_lookup pdb idx = UNREACHED
    · rw [if_pos h]
      unfold pdb_update
      exact Function.update_noteq ha _ _
    · rw [if_neg h]

/-- Witness for C4 at a concrete single-entry situation: the database
constantly holding UNREACHED over the tileset of tile 1, the index
(0, 0, -1) and the stored value 3, with the frame conjunct
instantiated at the distinct address (1, 1). -/
theorem c4_pdb_conditional_update_spec_witness :
    ((pdb_conditional_update ⟨make_index_aux {1}, fun _ => 255⟩ ⟨0, 0, -1⟩ 3).tables
        (pdb_entry_pointer ⟨make_index_aux {1}, fun _ => 255⟩ ⟨0, 0, -1⟩) =
      if pdb_lookup ⟨make_index_aux {1}, fun _ => 255⟩ ⟨0, 0, -1⟩ = UNREACHED then 3
      else pdb_lookup ⟨make_index_aux {1}, fun _ => 255⟩ ⟨0, 0, -1⟩) ∧
    ((1, 1) : Nat × Nat) ≠ pdb_entry_pointer ⟨make_index_aux {1}, fun _ => 255⟩ ⟨0, 0, -1⟩ ∧
    (pdb_conditional_update ⟨make_index_aux {1}, fun _ => 255⟩ ⟨0, 0, -1⟩ 3).tables (1, 1) =
      (⟨make_index_aux {1}, fun _ => 255⟩ : patterndb).tables (1, 1) :=
  ⟨(c4_pdb_conditional_update_spec ⟨make_index_aux {1}, fun _ => 255⟩ ⟨0, 0, -1⟩ 3).1,
    by decide,
    (c4_pdb_conditional_update_spec ⟨make_index_aux {1}, fun _ => 255⟩ ⟨0, 0, -1⟩ 3).2
      (1, 1) (by decide)⟩

/- ------------------------------------------------------------------ -/
/- Lemmas about ctz, the lowest-bit clear and catalogue_ph_hval        -/
/- ------------------------------------------------------------------ -/

theorem bitIndices_ne_nil {n : Nat} (hn : n ≠ 0) : n.bitIndices ≠ [] := by
  intro h
  apply hn
  have hsum := Nat.twoPowSum_bitIndices n
  rw [h] at hsum
  simpa using hsum.symm

theorem ctz_go_eq_headD :
    ∀ fuel n, n ≠ 0 → n ≤ fuel → ctz_go fuel n = n.bitIndices.headD 0 := by
  intro fuel
  induction fuel with
  | zero => intro n hn hle; omega
  | succ fuel ih =>
    intro n hn hle
    rcases Nat.mod_two_eq_zero_or_one n with h2 | h2
    · have hm : n = 2 * (n / 2) := by omega
      have hm0 : n / 2 ≠ 0 := by omega
      have hmle : n / 2 ≤ fuel := by omega
      have hrec : ctz_go (fuel + 1) n = 1 + ctz_go fuel (n / 2) := by
        simp [ctz_go, h2]
      rw [hrec, ih (n / 2) hm0 hmle]
      rcases List.exists_cons_of_ne_nil (bitIndices_ne_nil hm0) with ⟨a, l, hal⟩
      have hbi : n.bitIndices = (n / 2).bitIndices.map (· + 1) := by
        conv_lhs => rw [hm]
        exact Nat.bitIndices_two_mul (n / 2)
      rw [hbi, hal]
      simp [Nat.add_comm]
    · have hm : n = 2 * (n / 2) + 1 := by omega
      have hrec : ctz_go (fuel + 1) n = 0 := by
        simp [ctz_go, h2]
      have hbi : n.bitIndices = 0 :: (n / 2).bitIndices.map (· + 1) := by
        conv_lhs => rw [hm]
        exact Nat.bitIndices_two_mul_add_one (n / 2)
      rw [hrec, hbi]
      rfl

theorem ctz_eq_headD {n : Nat} (hn : n ≠ 0) : ctz n = n.bitIndices.headD 0 :=
  ctz_go_eq_headD n n hn (Nat.le_refl n)

theorem land_self (n : Nat) : n &&& n = n := by
  apply Nat.eq_of_testBit_eq
  intro i
  rw [Nat.testBit_land, Bool.and_self]

theorem bit_true_eq (m : Nat) : Nat.bit true m = 2 * m + 1 := rfl

theorem bit_false_eq (m : Nat) : Nat.bit false m = 2 * m := rfl

theorem land_pred_odd (m : Nat) : (2 * m + 1) &&& (2 * m) = 2 * m := by
  rw [← bit_true_eq, ← bit_false_eq, Nat.land_bit, Bool.and_false, land_self, bit_false_eq]

theorem land_pred_even {m : Nat} (hm : m ≠ 0) :
    (2 * m) &&& (2 * m - 1) = 2 * (m &&& (m - 1)) := by
  have h1 : 2 * m - 1 = 2 * (m - 1) + 1 := by omega
  rw [h1, ← bit_false_eq, ← bit_true_eq, Nat.land_bit, Bool.false_and, bit_false_eq]

theorem bitIndices_cons : ∀ n, n ≠ 0 → n.bitIndices = ctz n :: (n &&& (n - 1)).bitIndices := by
  intro n
  induction n using Nat.strong_induction_on with
  | _ n ih =>
    intro hn
    rcases Nat.mod_two_eq_zero_or_one n with h2 | h2
    · have hm : n = 2 * (n / 2) := by omega
      have hm0 : n / 2 ≠ 0 := by omega
      have hlt : n / 2 < n := by omega
      have hctz : ctz n = ctz (n / 2) + 1 := by
        rw [ctz_eq_headD hn, ctz_eq_headD hm0]
        have hbi : n.bitIndices = (n / 2).bitIndices.map (· + 1) := by
          conv_lhs => rw [hm]
          exact Nat.bitIndices_two_mul (n / 2)
        rcases List.exists_cons_of_ne_nil (bitIndices_ne_nil hm0) with ⟨a, l, hal⟩
        rw [hbi, hal]
        simp
      have hland : n &&& (n - 1) = 2 * ((n / 2) &&& (n / 2 - 1)) := by
        conv_lhs => rw [hm]
        exact land_pred_even hm0
      have hbi : n.bitIndices = (n / 2).bitIndices.map (· + 1) := by
        conv_lhs => rw [hm]
        exact Nat.bitIndices_two_mul (n / 2)
      rw [hbi, ih (n / 2) hlt hm0, hland, hctz]
      simp [Nat.bitIndices_two_mul, Nat.add_comm]
    · have hm : n = 2 * (n / 2) + 1 := by omega
      have hctz : ctz n = 0 := by
        rw [ctz_eq_headD hn]
        have hbi : n.bitIndices = 0 :: (n / 2).bitIndices.map (· + 1) := by
          conv_lhs => rw [hm]
          exact Nat.bitIndices_two_mul_add_one (n / 2)
        rw [hbi]
        rfl
      have hland : n &&& (n - 1) = 2 * (n / 2) := by
        conv_lhs => rw [hm, show 2 * (n / 2) + 1 - 1 = 2 * (n / 2) from rfl]
        exact land_pred_odd (n / 2)
      have hbi : n.bitIndices = 0 :: (n / 2).bitIndices.map (· + 1) := by
        conv_lhs => rw [hm]
        exact Nat.bitIndices_two_mul_add_one (n / 2)
      rw [hbi, hctz, hland, Nat.bitIndices_two_mul]

theorem land_pred_le : ∀ n, n ≠ 0 → n &&& (n - 1) ≤ n - 1 := by
  intro n
  induction n using Nat.strong_induction_on with
  | _ n ih =>
    intro hn
    rcases Nat.mod_two_eq_zero_or_one n with h2 | h2
    · have hm : n = 2 * (n / 2) := by omega
      have hm0 : n / 2 ≠ 0 := by omega
      have hlt : n / 2 < n := by omega
      have hland : n &&& (n - 1) = 2 * ((n / 2) &&& (n / 2 - 1)) := by
        conv_lhs => rw [hm]
        exact land_pred_even hm0
      have hle := ih (n / 2) hlt hm0
      omega
    · have hm : n = 2 * (n / 2) + 1 := by omega
      have hland : n &&& (n - 1) = 2 * (n / 2) := by
        conv_lhs => rw [hm, show 2 * (n / 2) + 1 - 1 = 2 * (n / 2) from rfl]
        exact land_pred_odd (n / 2)
      omega

theorem parts_hvals_go_eq (hvals : Nat → Nat) :
    ∀ fuel parts, parts ≤ fuel →
      parts_hvals_go hvals fuel parts = (parts.bitIndices.map hvals).sum := by
  intro fuel
  induction fuel with
  | zero =>
    intro parts hle
    have h0 : parts = 0 := by omega
    subst h0
    simp [parts_hvals_go]
  | succ fuel ih =>
    intro parts hle
    by_cases h0 : parts = 0
    · subst h0
      simp [parts_hvals_go]
    · have hrec : parts_hvals_go hvals (fuel + 1) parts =
          hvals (ctz parts) + parts_hvals_go hvals fuel (parts &&& (parts - 1)) := by
        simp [parts_hvals_go, h0]
      have hle2 : parts &&& (parts - 1) ≤ fuel := by
        have := land_pred_le parts h0
        omega
      rw [hrec, ih _ hle2, bitIndices_cons parts h0]
      simp

theorem parts_hvals_sum_eq (hvals : Nat → Nat) (parts : Nat) :
    parts_hvals_sum hvals parts = (parts.bitIndices.map hvals).sum :=
  parts_hvals_go_eq hvals parts parts (Nat.le_refl parts)

theorem foldl_max_eq_sup (f : Nat → Nat) :
    ∀ (n : Nat) (acc : Nat),
      (List.range n).foldl (fun mx i => if f i > mx then f i else mx) acc =
        max acc ((Finset.range n).sup f) := by
  intro n
  induction n with
  | zero => intro acc; simp
  | succ n ih =>
    intro acc
    rw [List.range_succ, List.foldl_append, ih acc, Finset.range_succ, Finset.sup_insert]
    simp only [List.foldl_cons, List.foldl_nil]
    have hs1 : f n ⊔ (Finset.range n).sup f = max (f n) ((Finset.range n).sup f) := rfl
    rw [hs1]
    split_ifs with h
    · omega
    · omega

/-- Claim C2: catalogue_ph_hval returns the maximum, over the first
n_heuristics heuristics, of the sum of the cached h values over the PDB
indices set in the heuristic's parts bitmap, and 0 when there is no
heuristic. -/
theorem c2_catalogue_ph_hval_max_of_sums (cat : pdb_catalogue) (ph : PartialHvals) :
    catalogue_ph_hval cat ph =
      (Finset.range cat.n_heuristics).sup
        (fun i => ((cat.parts i).bitIndices.map ph.hvals).sum) := by
  have hstep : catalogue_ph_hval cat ph =
      (List.range cat.n_heuristics).foldl
        (fun mx i => if parts_hvals_sum ph.hvals (cat.parts i) > mx
          then parts_hvals_sum ph.hvals (cat.parts i) else mx) 0 := rfl
  rw [hstep, foldl_max_eq_sup (fun i => parts_hvals_sum ph.hvals (cat.parts i))
    cat.n_heuristics 0]
  have hf : (fun i => parts_hvals_sum ph.hvals (cat.parts i)) =
      fun i => ((cat.parts i).bitIndices.map ph.hvals).sum := by
    funext i
    exact parts_hvals_sum_eq ph.hvals (cat.parts i)
  rw [hf]
  omega

/- ------------------------------------------------------------------ -/
/- Lemmas about the finite state machines                              -/
/- ------------------------------------------------------------------ -/

theorem get_moves_length_le (z : Fin 25) : (get_moves z).length ≤ 4 := by
  revert z
  decide

theorem dummy_row_getD {i : Nat} (hi : i < 4) (x : Nat) :
    List.getD [FSM_BEGIN, FSM_BEGIN, FSM_BEGIN, FSM_BEGIN] i x = FSM_BEGIN := by
  interval_cases i <;> rfl

theorem fsm_dummy_advance {zloc d : Fin 25} (hd : d ∈ get_moves zloc) :
    fsm_advance fsm_dummy zloc FSM_BEGIN d = FSM_BEGIN := by
  have hidx : (get_moves zloc).indexOf d < (get_moves zloc).length :=
    List.indexOf_lt_length.mpr hd
  have hlt : (get_moves zloc).indexOf d < 4 :=
    Nat.lt_of_lt_of_le hidx (get_moves_length_le zloc)
  unfold fsm_advance fsm_dummy dummy_states
  simp only [List.getD_cons_zero]
  show List.getD [FSM_BEGIN, FSM_BEGIN, FSM_BEGIN, FSM_BEGIN] _ FSM_UNASSIGNED = FSM_BEGIN
  exact dummy_row_getD hlt _

theorem fsm_dummy_run_begin :
    ∀ (seq : List (Fin 25)) (zloc : Fin 25), legal_moves zloc seq = true →
      fsm_run fsm_dummy zloc FSM_BEGIN seq = FSM_BEGIN := by
  intro seq
  induction seq with
  | nil => intro zloc _; rfl
  | cons d rest ih =>
    intro zloc hlegal
    have hparts : (d ∈ get_moves zloc) ∧ legal_moves d rest = true := by
      have h := hlegal
      unfold legal_moves at h
      rcases Bool.and_eq_true_iff.mp h with ⟨h1, h2⟩
      exact ⟨of_decide_eq_true h1, h2⟩
    have hadv : fsm_advance fsm_dummy zloc FSM_BEGIN d = FSM_BEGIN :=
      fsm_dummy_advance hparts.1
    have hne : FSM_BEGIN ≠ FSM_MATCH := by decide
    show (let st2 := fsm_advance fsm_dummy zloc FSM_BEGIN d
      if st2 = FSM_MATCH then FSM_MATCH else fsm_run fsm_dummy d st2 rest) = FSM_BEGIN
    rw [hadv]
    simp only [if_neg hne]
    exact ih d hparts.2

/-- Claim C7: the dummy machine never reaches the rejecting state on any
legal move sequence from any zero-tile square, and the simple machine,
started in its begin state, reaches FSM_MATCH after a two-move sequence
exactly when the second move returns the zero tile to the square it
came from. -/
theorem c7_fsm_dummy_accepts_simple_rejects_reversals :
    (∀ (zloc : Fin 25) (seq : List (Fin 25)), legal_moves zloc seq = true →
      fsm_run fsm_dummy zloc FSM_BEGIN seq ≠ FSM_MATCH) ∧
    ∀ zloc : Fin 25, ∀ m1 ∈ get_moves zloc, ∀ m2 ∈ get_moves m1,
      (fsm_run fsm_simple zloc FSM_BEGIN [m1, m2] = FSM_MATCH ↔ m2 = zloc) := by
  constructor
  · intro zloc seq hlegal
    rw [fsm_dummy_run_begin seq zloc hlegal]
    decide
  · decide

/-- Witness for C7: from the top left corner, the legal sequence
right-then-left is accepted by the dummy machine and is exactly a
reversal, so the simple machine reports the match. -/
theorem c7_fsm_dummy_accepts_simple_rejects_reversals_witness :
    (fsm_run fsm_dummy 0 FSM_BEGIN [1, 0] ≠ FSM_MATCH) ∧
      (fsm_run fsm_simple 0 FSM_BEGIN [1, 0] = FSM_MATCH ↔ (0 : Fin 25) = 0) :=
  ⟨c7_fsm_dummy_accepts_simple_rejects_reversals.1 0 [1, 0] (by decide),
    c7_fsm_dummy_accepts_simple_rejects_reversals.2 0 1 (by decide) 0 (by decide)⟩

/- ------------------------------------------------------------------ -/
/- Lemmas about the heuristic loader                                   -/
/- ------------------------------------------------------------------ -/

theorem drv_call_nocreate_fails {ent : driver_entry} {e : drv_env}
    (hp : e.pathfits = true) (ho : e.openr = false) :
    drv_call ent true e false = .error e.open_errno := by
  cases hk : ent.kind
  · simp [drv_call, hk, common_pdb_driver, hp, ho]
  · simp [drv_call, hk, common_bitpdb_driver, hp, ho]

theorem drv_call_create_ok {ent : driver_entry} {e : drv_env}
    (hp : e.pathfits = true) (ho : e.openr = false) (ha : e.alloc = true)
    (hc : e.conv = true) (hw : e.fopenw = false ∨ e.store = false) :
    ∃ pr, drv_call ent true e true = .ok pr := by
  cases hk : ent.kind
  · refine ⟨.fullpdb, ?_⟩
    rcases hw with hw | hw
    · simp [drv_call, hk, common_pdb_driver, common_pdb_create, hp, ho, ha, hw]
    · rcases hfw : e.fopenw with _ | _
      · simp [drv_call, hk, common_pdb_driver, common_pdb_create, hp, ho, ha, hfw]
      · simp [drv_call, hk, common_pdb_driver, common_pdb_create, hp, ho, ha, hfw, hw]
  · refine ⟨.bitpdb, ?_⟩
    rcases hw with hw | hw
    · simp [drv_call, hk, common_bitpdb_driver, common_bitpdb_create, hp, ho, ha, hc, hw]
    · rcases hfw : e.fopenw with _ | _
      · simp [drv_call, hk, common_bitpdb_driver, common_bitpdb_create, hp, ho, ha, hc, hfw]
      · simp [drv_call, hk, common_bitpdb_driver, common_bitpdb_create, hp, ho, ha, hc,
          hfw, hw]

theorem heu_try_open_none {heudir : Bool} {env : Nat → drv_env} {pred : driver_entry → Bool} :
    ∀ entries : List (Nat × driver_entry),
      (∀ ie ∈ entries, pred ie.2 = true →
        ∃ err, drv_call ie.2 heudir (env ie.1) false = .error err) →
      heu_try_open heudir env pred entries = none := by
  intro entries
  induction entries with
  | nil => intro _; rfl
  | cons ie rest ih =>
    intro hfail
    rcases ie with ⟨i, ent⟩
    have ihrest := ih (fun je hje hp => hfail je (List.mem_cons_of_mem _ hje) hp)
    by_cases hpred : pred ent = true
    · rcases hfail (i, ent) (List.mem_cons_self _ _) hpred with ⟨err, herr⟩
      simp [heu_try_open, hpred, herr, ihrest]
    · simp [heu_try_open, hpred, ihrest]

theorem enumFrom_mem_snd {α : Type} :
    ∀ (l : List α) (n : Nat) (ie : Nat × α), ie ∈ List.enumFrom n l → ie.2 ∈ l := by
  intro l
  induction l with
  | nil => intro n ie h; exact absurd h (List.not_mem_nil ie)
  | cons x rest ih =>
    intro n ie h
    rcases List.mem_cons.mp h with heq | hmem
    · subst heq
      exact List.mem_cons_self x rest
    · exact List.mem_cons_of_mem _ (ih (n + 1) ie hmem)

theorem heu_try_create_some {env : Nat → drv_env} {pred : driver_entry → Bool} :
    ∀ entries : List (Nat × driver_entry), (∃ ie ∈ entries, pred ie.2 = true) →
      ∃ ie ∈ entries, pred ie.2 = true ∧
        heu_try_create true env pred entries = some (drv_call ie.2 true (env ie.1) true) := by
  intro entries
  induction entries with
  | nil =>
    intro h
    rcases h with ⟨ie, hmem, _⟩
    exact absurd hmem (List.not_mem_nil ie)
  | cons ie rest ih =>
    intro h
    rcases ie with ⟨i, ent⟩
    by_cases hpred : pred ent = true
    · exact ⟨(i, ent), List.mem_cons_self _ _, hpred, by simp [heu_try_create, hpred]⟩
    · have h2 : ∃ ie ∈ rest, pred ie.2 = true := by
        rcases h with ⟨je, hmem, hp⟩
        rcases List.mem_cons.mp hmem with heq | hmem2
        · subst heq
          exact absurd hp hpred
        · exact ⟨je, hmem2, hp⟩
      rcases ih h2 with ⟨je, hmem, hp, heq⟩
      exact ⟨je, List.mem_cons_of_mem _ hmem, hp, by simp [heu_try_create, hpred, heq]⟩

theorem exists_enumFrom_of_mem {α : Type} {P : α → Prop} :
    ∀ (l : List α) (n : Nat), (∃ a ∈ l, P a) → ∃ ie ∈ List.enumFrom n l, P ie.2 := by
  intro l
  induction l with
  | nil =>
    intro n h
    rcases h with ⟨a, hmem, _⟩
    exact absurd hmem (List.not_mem_nil a)
  | cons x rest ih =>
    intro n h
    rcases h with ⟨a, hmem, hp⟩
    rcases List.mem_cons.mp hmem with heq | hmem2
    · exact ⟨(n, x), List.mem_cons_self _ _, heq ▸ hp⟩
    · rcases ih (n + 1) ⟨a, hmem2, hp⟩ with ⟨ie, hmem3, hp2⟩
      exact ⟨ie, List.mem_cons_of_mem _ hmem3, hp2⟩

theorem drivers_match_has_exact {s : String} (h : ∃ ent ∈ drivers, s = ent.typestr) :
    drivers.any (heu_exact_pred s) = true := by
  rcases h with ⟨ent, hmem, heq⟩
  fin_cases hmem <;> subst heq <;> decide

theorem heu_open_all_fail (typestr : String) (flags : heu_flags) (heudir : Bool)
    (env : Nat → drv_env)
    (h1 : heu_try_open heudir env (heu_exact_pred typestr) drivers.enum = none)
    (h2 : heu_try_open heudir env (heu_similar_pred typestr) drivers.enum = none)
    (h3 : flags.create = false) :
    heu_open typestr flags heudir env =
      (if drivers.any (heu_exact_pred typestr) ||
          (flags.similar && drivers.any (heu_similar_pred typestr)) then
        Except.error ENOENT
      else Except.error EINVAL) := by
  unfold heu_open
  rw [h1, h3]
  cases hs : flags.similar
  · simp [h2]
  · simp [h2]

/-- Claim C8: with HEU_CREATE unset, heu_open fails with EINVAL when the
type string matches no driver, and fails with ENOENT when the type
string matches at least one driver but no heuristic file can be opened
(the per-entry outcomes say every open fails while the path always
fits). -/
theorem c8_heu_open_errors :
    (∀ (typestr : String) (flags : heu_flags) (heudir : Bool) (env : Nat → drv_env),
      flags.create = false → (∀ ent ∈ drivers, typestr ≠ ent.typestr) →
      heu_open typestr flags heudir env = .error EINVAL) ∧
    ∀ (typestr : String) (flags : heu_flags) (env : Nat → drv_env),
      flags.create = false → (∃ ent ∈ drivers, typestr = ent.typestr) →
      (∀ i, (env i).pathfits = true) → (∀ i, (env i).openr = false) →
      heu_open typestr flags true env = .error ENOENT := by
  constructor
  · intro typestr flags heudir env hc hnone
    have hfail : ∀ (pred : driver_entry → Bool),
        (∀ ent ∈ drivers, pred ent = true → False) →
        heu_try_open heudir env pred drivers.enum = none := by
      intro pred hcontra
      apply heu_try_open_none
      intro ie hie hp
      exact absurd hp (fun hp2 =>
        hcontra ie.2 (enumFrom_mem_snd drivers 0 ie hie) hp2)
    have h1 : heu_try_open heudir env (heu_exact_pred typestr) drivers.enum = none := by
      apply hfail
      intro ent hmem hp
      have := (Bool.and_eq_true_iff.mp hp).2
      exact hnone ent hmem (by simpa using this)
    have h2 : heu_try_open heudir env (heu_similar_pred typestr) drivers.enum = none := by
      apply hfail
      intro ent hmem hp
      have := (Bool.and_eq_true_iff.mp hp).2
      exact hnone ent hmem (by simpa using this)
    rw [heu_open_all_fail typestr flags heudir env h1 h2 hc]
    have hex : drivers.any (heu_exact_pred typestr) = false := by
      rw [List.any_eq_false]
      intro ent hmem hp
      have := (Bool.and_eq_true_iff.mp hp).2
      exact hnone ent hmem (by simpa using this)
    have hsim : drivers.any (heu_similar_pred typestr) = false := by
      rw [List.any_eq_false]
      intro ent hmem hp
      have := (Bool.and_eq_true_iff.mp hp).2
      exact hnone ent hmem (by simpa using this)
    rw [hex, hsim]
    simp
  · intro typestr flags env hc hmatch hpath hopen
    have h1 : heu_try_open true env (heu_exact_pred typestr) drivers.enum = none := by
      apply heu_try_open_none
      intro ie _ _
      exact ⟨(env ie.1).open_errno, drv_call_nocreate_fails (hpath ie.1) (hopen ie.1)⟩
    have h2 : heu_try_open true env (heu_similar_pred typestr) drivers.enum = none := by
      apply heu_try_open_none
      intro ie _ _
      exact ⟨(env ie.1).open_errno, drv_call_nocreate_fails (hpath ie.1) (hopen ie.1)⟩
    rw [heu_open_all_fail typestr flags true env h1 h2 hc]
    rw [drivers_match_has_exact hmatch]
    simp

/-- Witness for C8: the unknown type string has no matching driver and
yields EINVAL; the known type string with every file absent yields
ENOENT. -/
theorem c8_heu_open_errors_witness :
    heu_open "nopdb" ⟨false, false, false, false⟩ true
        (fun _ => ⟨true, false, 2, true, 0, true, 0, true, 0, true, true, true, 0⟩) =
      .error EINVAL ∧
    heu_open "pdb" ⟨false, false, false, false⟩ true
        (fun _ => ⟨true, false, 2, true, 0, true, 0, true, 0, true, true, true, 0⟩) =
      .error ENOENT :=
  ⟨c8_heu_open_errors.1 "nopdb" ⟨false, false, false, false⟩ true _ rfl (by decide),
    c8_heu_open_errors.2 "pdb" ⟨false, false, false, false⟩ _ rfl
      ⟨⟨"pdb", .pdbk, false, false, false⟩, by decide, rfl⟩ (fun _ => rfl) (fun _ => rfl)⟩

/-- Claim C9: with HEU_CREATE set, when allocation and conversion
succeed, a failure to open the destination file for writing or a
failure of the store function does not fail the call: heu_open still
succeeds and hands back a usable in-memory provider. -/
theorem c9_heu_open_create_write_failure_ok
    (typestr : String) (flags : heu_flags) (env : Nat → drv_env)
    (hcreate : flags.create = true)
    (hmatch : ∃ ent ∈ drivers, typestr = ent.typestr ∧ ent.similar = false)
    (hpath : ∀ i, (env i).pathfits = true)
    (hopen : ∀ i, (env i).openr = false)
    (halloc : ∀ i, (env i).alloc = true)
    (hconv : ∀ i, (env i).conv = true)
    (hwrite : ∀ i, (env i).fopenw = false ∨ (env i).store = false) :
    ∃ pr, heu_open typestr flags true env = .ok pr := by
  have h1 : heu_try_open true env (heu_exact_pred typestr) drivers.enum = none := by
    apply heu_try_open_none
    intro ie _ _
    exact ⟨(env ie.1).open_errno, drv_call_nocreate_fails (hpath ie.1) (hopen ie.1)⟩
  have h2 : heu_try_open true env (heu_similar_pred typestr) drivers.enum = none := by
    apply heu_try_open_none
    intro ie _ _
    exact ⟨(env ie.1).open_errno, drv_call_nocreate_fails (hpath ie.1) (hopen ie.1)⟩
  have hmatch2 : ∃ ie ∈ drivers.enum, heu_exact_pred typestr ie.2 = true := by
    have h3 : ∃ ent ∈ drivers, heu_exact_pred typestr ent = true := by
      rcases hmatch with ⟨ent, hmem, heq, hsim⟩
      refine ⟨ent, hmem, ?_⟩
      simp [heu_exact_pred, hsim, heq]
    exact @exists_enumFrom_of_mem driver_entry
      (fun ent => heu_exact_pred typestr ent = true) drivers 0 h3
  rcases @heu_try_create_some env (heu_exact_pred typestr) drivers.enum hmatch2 with
    ⟨ie, _, _, hcr⟩
  rcases @drv_call_create_ok ie.2 (env ie.1) (hpath ie.1) (hopen ie.1) (halloc ie.1)
    (hconv ie.1) (hwrite ie.1) with ⟨pr, hok⟩
  refine ⟨pr, ?_⟩
  unfold heu_open
  cases hs : flags.similar
  · simp only [h1, hs, hcreate, hcr, hok, Bool.false_eq_true, if_false, if_true]
  · simp only [h1, h2, hs, hcreate, hcr, hok, if_true]

/-- Witness for C9: creating a full PDB for the known type string with
the destination file unwritable still succeeds. -/
theorem c9_heu_open_create_write_failure_ok_witness :
    ∃ pr, heu_open "pdb" ⟨true, false, false, false⟩ true
        (fun _ => ⟨true, false, 2, true, 0, true, 0, true, 0, false, false, true, 0⟩) =
      .ok pr :=
  c9_heu_open_create_write_failure_ok "pdb" ⟨true, false, false, false⟩ _ rfl
    ⟨⟨"pdb", .pdbk, false, false, false⟩, by decide, rfl, rfl⟩
    (fun _ => rfl) (fun _ => rfl) (fun _ => rfl) (fun _ => rfl) (fun _ => Or.inl rfl)
